import Mathlib

/-!
Verification of the bounded-memory traversal-and-batch-processing pattern in
`scripts/example-optimized-processing.py`.

The embedding models:
* filenames as lists of characters and a directory listing as a `Forest`,
  an inlined list of entries (regular file, subdirectory, or other entry
  kind); a subdirectory carries a `denied` flag modelling `iterdir`
  raising an enumeration error (`PermissionError` or any other exception,
  both of which the script swallows);
* `find_unformatted_files_generator` as a function producing the list of
  yielded candidate paths in traversal order;
* `process_directory_optimized` as a function over the list of candidates
  produced by the traversal, instrumented with observation fields (the
  candidates passed to `process_file`, the printed batch reports, the
  counter values after each `process_file` call, the flushed batch sizes)
  so that the run's externally visible behaviour can be stated.
-/

/-- A filename, as the list of its characters (Python manipulates names as
strings; we use `List Char` so that all predicates compute). -/
abbrev FName := List Char

/-- A path relative to the traversal root: the list of path components
below the root, ending with the filename. -/
abbrev FPath := List FName

/-- `item.name.startswith('.')`. -/
def isHidden : FName → Bool
  | [] => false
  | c :: _ => c == '.'

/-- `FORMATTED_PATTERN = re.compile(r'^\d{4}-\d{2}-\d{2}_')` applied with
`.match`, i.e. anchored at the start of the name: four digits, a dash, two
digits, a dash, two digits, an underscore.  (Digits are modelled as ASCII
digits.) -/
def formattedMatch (n : FName) : Bool :=
  match n with
  | a :: b :: c :: d :: h1 :: e :: f :: h2 :: g :: h :: u :: _ =>
    a.isDigit && b.isDigit && c.isDigit && d.isDigit && h1 == '-' &&
    e.isDigit && f.isDigit && h2 == '-' && g.isDigit && h.isDigit && u == '_'
  | _ => false

/-- Index of the last occurrence of a dot in a name (`name.rfind('.')`). -/
def rfindDot : List Char → Option Nat
  | [] => none
  | c :: rest =>
    match rfindDot rest with
    | some i => some (i + 1)
    | none => if c == '.' then some 0 else none

/-- `pathlib.PurePath.suffix`: the final component's extension including
the leading dot; empty if the last dot is the first character or the last
character (so `.bashrc` and `foo.` have no suffix). -/
def suffixOf (n : FName) : FName :=
  match rfindDot n with
  | none => []
  | some i => if 0 < i ∧ i + 1 < n.length then n.drop i else []

/-- `str.lower()`, characterwise (ASCII case folding suffices for the
extensions in the allow-list). -/
def lowerStr (n : FName) : FName := n.map Char.toLower

/-- `FILE_EXTENSIONS = ('.pdf', '.txt', '.doc', '.docx', '.xls', '.xlsx',
'.ppt', '.pptx')`. -/
def FILE_EXTENSIONS : List FName :=
  [".pdf", ".txt", ".doc", ".docx", ".xls", ".xlsx", ".ppt", ".pptx"].map
    String.toList

/-- `item.suffix.lower() in FILE_EXTENSIONS`. -/
def extOk (n : FName) : Bool :=
  decide (lowerStr (suffixOf n) ∈ FILE_EXTENSIONS)

/-- A directory listing, with the list-of-entries structure inlined into
the inductive (so that all traversals are structural recursions): `nil`
ends a listing; `fileC`/`dirC`/`otherC` prepend a regular file, a
subdirectory, or an entry that is neither (for which both `is_dir()` and
`is_file()` are false).  A subdirectory's `denied` flag models its
enumeration raising. -/
inductive Forest : Type where
  | nil : Forest
  | fileC (name : FName) (rest : Forest) : Forest
  | dirC (name : FName) (denied : Bool) (children : Forest) (rest : Forest) : Forest
  | otherC (name : FName) (rest : Forest) : Forest
deriving Repr, DecidableEq

/-- The body of the `for item in dir_path.iterdir()` loop of
`find_unformatted_files_generator`, over one directory listing: hidden
entries are skipped; a subdirectory is entered recursively at depth
`currentDepth + 1` (the child call's guards are inlined here: it returns
nothing once `current_depth > max_depth`, and also when its enumeration
raises, which the script swallows); a regular file is yielded when its
extension is in the allow-list and its name does not match the
already-formatted pattern. -/
def genList (maxDepth : Nat) : Forest → Nat → FPath → List FPath
  | .nil, _, _ => []
  | .fileC n rest, currentDepth, pref =>
    (if isHidden n then []
     else if extOk n then
       if formattedMatch n then [] else [pref ++ [n]]
     else []) ++ genList maxDepth rest currentDepth pref
  | .dirC n d children rest, currentDepth, pref =>
    (if isHidden n then []
     else if maxDepth < currentDepth + 1 then []
     else if d then []
     else genList maxDepth children (currentDepth + 1) (pref ++ [n])) ++
    genList maxDepth rest currentDepth pref
  | .otherC _ rest, currentDepth, pref =>
    genList maxDepth rest currentDepth pref

/-- The root directory handed to the traversal: its listing, and whether
enumerating it raises. -/
structure FSDir : Type where
  denied : Bool
  children : Forest
deriving Repr, DecidableEq

/-- `find_unformatted_files_generator(dir_path, max_depth, current_depth)`:
the list of candidate paths (relative to the root, accumulated in `pref`)
yielded by one traversal of the root directory.  Returns nothing when the
depth guard trips or when enumerating the root raises. -/
def find_unformatted_files_generator (maxDepth : Nat) (root : FSDir)
    (currentDepth : Nat) (pref : FPath) : List FPath :=
  if maxDepth < currentDepth then []
  else if root.denied then []
  else genList maxDepth root.children currentDepth pref

/-- Specification side (spec §3, §8): all regular files of a forest, with
their full relative paths, ignoring depth, hiding, denial and the name
filter entirely. -/
def allFilesIn : Forest → FPath → List FPath
  | .nil, _ => []
  | .fileC n rest, pref => (pref ++ [n]) :: allFilesIn rest pref
  | .dirC n _ children rest, pref =>
    allFilesIn children (pref ++ [n]) ++ allFilesIn rest pref
  | .otherC _ rest, pref => allFilesIn rest pref

/-- All regular files below the root. -/
def allFiles (root : FSDir) : List FPath := allFilesIn root.children []

/-- Specification-side filter (spec §8, first testable property): the
file's path has no hidden component below the root, the file lies at depth
at most `maxDepth` (a file directly in the root is at depth 0, so its path
has one component), its extension is case-insensitively in the allow-list,
and its name does not match the formatted-prefix pattern. -/
def specMatch (maxDepth : Nat) (p : FPath) : Bool :=
  decide (p.length ≤ maxDepth + 1) &&
  p.all (fun comp => !(isHidden comp)) &&
  extOk (p.getLastD []) &&
  !(formattedMatch (p.getLastD []))

/-- No directory in the forest has its enumeration raise. -/
def errorFree : Forest → Bool
  | .nil => true
  | .fileC _ rest => errorFree rest
  | .dirC _ d children rest => !d && errorFree children && errorFree rest
  | .otherC _ rest => errorFree rest

/-- The names listed at the top level of a forest. -/
def namesOf : Forest → List FName
  | .nil => []
  | .fileC n rest => n :: namesOf rest
  | .dirC n _ _ rest => n :: namesOf rest
  | .otherC n rest => n :: namesOf rest

/-- Distinct names hold inside every subdirectory's listing, recursively. -/
def wfSub : Forest → Bool
  | .nil => true
  | .fileC _ rest => wfSub rest
  | .dirC _ _ children rest =>
    decide (namesOf children).Nodup && wfSub children && wfSub rest
  | .otherC _ rest => wfSub rest

/-- Real filesystems list distinct names inside one directory; this
records that fact for the level itself and every directory below it. -/
def wfForest (f : Forest) : Bool :=
  decide (namesOf f).Nodup && wfSub f

/-- Remove the contents of every denied directory (the subtree an
enumeration error hides from the traversal), keeping everything else. -/
def pruneF : Forest → Forest
  | .nil => .nil
  | .fileC n rest => .fileC n (pruneF rest)
  | .dirC n d children rest =>
    .dirC n false (if d then .nil else pruneF children) (pruneF rest)
  | .otherC n rest => .otherC n (pruneF rest)

/-- `pruneF` on the root. -/
def pruneRoot (root : FSDir) : FSDir :=
  ⟨false, if root.denied then .nil else pruneF root.children⟩

/-- The outcome of one run of `process_directory_optimized`, instrumented
with the run's externally visible events: besides the returned `stats`
dict (`success`, `errors`), it records the value of `batch_count`, whether
the run left the loop through the safety-limit `break`, how many
candidates were pulled from the generator (loop iterations), the
candidates passed to `process_file` in order, the counter values after
each `process_file` call together with the pull count at that moment, the
printed per-batch progress reports `(batch_count, success, errors)`, the
sizes of the batches flushed inside the loop, the size of the tail batch
flushed after the loop (0 if none), and the largest batch length observed
right after an append. -/
structure RunResult (α : Type) : Type where
  success : Nat
  errors : Nat
  batchCount : Nat
  capped : Bool
  pulled : Nat
  processed : List α
  trace : List (Nat × Nat × Nat)
  reports : List (Nat × Nat × Nat)
  flushSizes : List Nat
  tailSize : Nat
  maxBatch : Nat
deriving Repr, DecidableEq

/-- `for f in batch: if process_file(f): success += 1 else: errors += 1`,
returning the final counters and, for the instrumentation, the counter
values after each call (paired with the current pull count). -/
def flushBatch {α : Type} (op : α → Bool) (pulledNow : Nat) :
    List α → Nat → Nat → Nat × Nat × List (Nat × Nat × Nat)
  | [], s, e => (s, e, [])
  | f :: rest, s, e =>
    if op f then
      let r := flushBatch op pulledNow rest (s + 1) e
      (r.1, r.2.1, (s + 1, e, pulledNow) :: r.2.2)
    else
      let r := flushBatch op pulledNow rest s (e + 1)
      (r.1, r.2.1, (s, e + 1, pulledNow) :: r.2.2)

/-- The main loop of `process_directory_optimized`, consuming the
remaining candidates with the current batch, counters, batch count, and
pull count.  Mirrors the source: append the pulled candidate; once
`len(batch) >= BATCH_SIZE`, flush it, bump `batch_count`, print the
progress line, clear the batch, and `break` if `success` has reached the
safety limit; after the loop, flush a non-empty remaining batch (with no
progress line and no `batch_count` bump) and return the stats. -/
def runLoop {α : Type} (op : α → Bool) (bs cap : Nat) :
    List α → List α → Nat → Nat → Nat → Nat → RunResult α
  | [], batch, s, e, bc, pulled =>
    if batch.isEmpty then
      ⟨s, e, bc, false, pulled, [], [], [], [], 0, 0⟩
    else
      let fb := flushBatch op pulled batch s e
      ⟨fb.1, fb.2.1, bc, false, pulled, batch, fb.2.2, [], [],
        batch.length, batch.length⟩
  | c :: rest, batch, s, e, bc, pulled =>
    let batch' := batch ++ [c]
    let pulled' := pulled + 1
    if bs ≤ batch'.length then
      let fb := flushBatch op pulled' batch' s e
      if cap ≤ fb.1 then
        ⟨fb.1, fb.2.1, bc + 1, true, pulled', batch', fb.2.2,
          [(bc + 1, fb.1, fb.2.1)], [batch'.length], 0, batch'.length⟩
      else
        let r := runLoop op bs cap rest [] fb.1 fb.2.1 (bc + 1) pulled'
        ⟨r.success, r.errors, r.batchCount, r.capped, r.pulled,
          batch' ++ r.processed, fb.2.2 ++ r.trace,
          (bc + 1, fb.1, fb.2.1) :: r.reports,
          batch'.length :: r.flushSizes, r.tailSize,
          max batch'.length r.maxBatch⟩
    else
      let r := runLoop op bs cap rest batch' s e bc pulled'
      ⟨r.success, r.errors, r.batchCount, r.capped, r.pulled, r.processed,
        r.trace, r.reports, r.flushSizes, r.tailSize,
        max batch'.length r.maxBatch⟩

/-- `process_directory_optimized`, abstracted over the per-item operation
`op` (`process_file`), the batch size (`BATCH_SIZE`), the safety limit
(`MAX_FILES_PER_RUN`), and the candidate sequence produced by the
generator. -/
def process_directory_optimized {α : Type} (op : α → Bool) (bs cap : Nat)
    (cands : List α) : RunResult α :=
  runLoop op bs cap cands [] 0 0 0 0

/-- `main()`: the run configuration is checked before anything else; if
the archive root does not exist (`world = none`) the function returns
without creating the traversal or the runner, so no candidate is pulled
and no per-item operation is invoked.  Otherwise it runs the generator
(default `max_depth = 3`) and feeds the candidates to the runner with
`BATCH_SIZE = 25` and `MAX_FILES_PER_RUN = 500`. -/
def main_run (world : Option FSDir) (op : FPath → Bool) :
    Option (RunResult FPath) :=
  match world with
  | none => none
  | some root =>
    some (process_directory_optimized op 25 500
      (find_unformatted_files_generator 3 root 0 []))

/-- Variant of the flush in which the per-item operation may raise
(modelled as `Except`): the source wraps no `try` around the
`process_file(f)` call, so a raise propagates at once and the remaining
batch items are not visited. -/
def flushBatchExc {α ε : Type} (op : α → Except ε Bool) :
    List α → Nat → Nat → Except ε (Nat × Nat)
  | [], s, e => Except.ok (s, e)
  | f :: rest, s, e =>
    match op f with
    | Except.error ex => Except.error ex
    | Except.ok true => flushBatchExc op rest (s + 1) e
    | Except.ok false => flushBatchExc op rest s (e + 1)

/-- The main loop when the per-item operation may raise: the loop installs
no handler, so the raise escapes `process_directory_optimized` and the
local `stats` dict is lost (the result is the bare exception). -/
def runLoopExc {α ε : Type} (op : α → Except ε Bool) (bs cap : Nat) :
    List α → List α → Nat → Nat → Except ε (Nat × Nat)
  | [], batch, s, e =>
    if batch.isEmpty then Except.ok (s, e) else flushBatchExc op batch s e
  | c :: rest, batch, s, e =>
    let batch' := batch ++ [c]
    if bs ≤ batch'.length then
      match flushBatchExc op batch' s e with
      | Except.error ex => Except.error ex
      | Except.ok (s', e') =>
        if cap ≤ s' then Except.ok (s', e')
        else runLoopExc op bs cap rest [] s' e'
    else runLoopExc op bs cap rest batch' s e

/-- `process_directory_optimized` when the per-item operation may raise. -/
def process_directory_optimized_exc {α ε : Type} (op : α → Except ε Bool)
    (bs cap : Nat) (cands : List α) : Except ε (Nat × Nat) :=
  runLoopExc op bs cap cands [] 0 0

/-- The boolean a raising per-item operation would have returned had it
followed its contract (`false` on internal failure). -/
def excBool {ε : Type} : Except ε Bool → Bool
  | Except.ok b => b
  | Except.error _ => false

/-- A concrete raising per-item operation, used to witness the behaviour
of the runner when the contract is violated. -/
def raisingOp : Nat → Except Unit Bool
  | 1 => Except.error ()
  | _ => Except.ok true

theorem flushBatch_success {α : Type} (op : α → Bool) (p : Nat) :
    ∀ (l : List α) (s e : Nat),
      (flushBatch op p l s e).1 = s + (l.filter op).length := by
  intro l
  induction l with
  | nil => intro s e; simp [flushBatch]
  | cons f rest ih =>
    intro s e
    by_cases h : op f
    · simp [flushBatch, h, ih]; omega
    · simp [flushBatch, h, ih]

theorem flushBatch_errors {α : Type} (op : α → Bool) (p : Nat) :
    ∀ (l : List α) (s e : Nat),
      (flushBatch op p l s e).2.1 = e + (l.filter (fun c => !(op c))).length := by
  intro l
  induction l with
  | nil => intro s e; simp [flushBatch]
  | cons f rest ih =>
    intro s e
    by_cases h : op f
    · simp [flushBatch, h, ih]
    · simp [flushBatch, h, ih]; omega

theorem flushBatch_trace_length {α : Type} (op : α → Bool) (p : Nat) :
    ∀ (l : List α) (s e : Nat),
      (flushBatch op p l s e).2.2.length = l.length := by
  intro l
  induction l with
  | nil => intro s e; simp [flushBatch]
  | cons f rest ih =>
    intro s e
    by_cases h : op f
    · simp [flushBatch, h, ih]
    · simp [flushBatch, h, ih]

theorem flushBatch_trace_get {α : Type} (op : α → Bool) (p : Nat) :
    ∀ (l : List α) (s e k : Nat) (t : Nat × Nat × Nat),
      (flushBatch op p l s e).2.2[k]? = some t →
        t.1 + t.2.1 = s + e + k + 1 ∧ t.2.2 = p := by
  intro l
  induction l with
  | nil => intro s e k t ht; simp [flushBatch] at ht
  | cons f rest ih =>
    intro s e k t ht
    by_cases h : op f
    · simp only [flushBatch, if_pos h] at ht
      cases k with
      | zero =>
        simp at ht
        subst ht
        refine ⟨?_, rfl⟩
        show s + 1 + e = s + e + 0 + 1
        omega
      | succ k =>
        simp only [List.getElem?_cons_succ] at ht
        have := ih (s + 1) e k t ht
        omega
    · simp only [flushBatch, if_neg h] at ht
      cases k with
      | zero =>
        simp at ht
        subst ht
        refine ⟨?_, rfl⟩
        show s + (e + 1) = s + e + 0 + 1
        omega
      | succ k =>
        simp only [List.getElem?_cons_succ] at ht
        have := ih s (e + 1) k t ht
        omega

theorem runLoop_nil_nil {α : Type} (op : α → Bool) (bs cap s e bc pulled : Nat) :
    runLoop op bs cap [] [] s e bc pulled
      = ⟨s, e, bc, false, pulled, [], [], [], [], 0, 0⟩ := rfl

theorem runLoop_nil_cons {α : Type} (op : α → Bool) (bs cap : Nat)
    (b : α) (bt : List α) (s e bc pulled : Nat) :
    runLoop op bs cap [] (b :: bt) s e bc pulled
      = ⟨(flushBatch op pulled (b :: bt) s e).1,
         (flushBatch op pulled (b :: bt) s e).2.1, bc, false, pulled, b :: bt,
         (flushBatch op pulled (b :: bt) s e).2.2, [], [],
         (b :: bt).length, (b :: bt).length⟩ := rfl

theorem runLoop_cons_break {α : Type} (op : α → Bool) (bs cap : Nat)
    (c : α) (rest batch : List α) (s e bc pulled : Nat)
    (hb : bs ≤ (batch ++ [c]).length)
    (hcap : cap ≤ (flushBatch op (pulled + 1) (batch ++ [c]) s e).1) :
    runLoop op bs cap (c :: rest) batch s e bc pulled
      = ⟨(flushBatch op (pulled + 1) (batch ++ [c]) s e).1,
         (flushBatch op (pulled + 1) (batch ++ [c]) s e).2.1,
         bc + 1, true, pulled + 1, batch ++ [c],
         (flushBatch op (pulled + 1) (batch ++ [c]) s e).2.2,
         [(bc + 1, (flushBatch op (pulled + 1) (batch ++ [c]) s e).1,
            (flushBatch op (pulled + 1) (batch ++ [c]) s e).2.1)],
         [(batch ++ [c]).length], 0, (batch ++ [c]).length⟩ := by
  simp only [runLoop]
  rw [if_pos hb, if_pos hcap]

theorem runLoop_cons_cont {α : Type} (op : α → Bool) (bs cap : Nat)
    (c : α) (rest batch : List α) (s e bc pulled : Nat)
    (hb : bs ≤ (batch ++ [c]).length)
    (hcap : ¬ cap ≤ (flushBatch op (pulled + 1) (batch ++ [c]) s e).1) :
    runLoop op bs cap (c :: rest) batch s e bc pulled
      = ⟨(runLoop op bs cap rest [] (flushBatch op (pulled + 1) (batch ++ [c]) s e).1
            (flushBatch op (pulled + 1) (batch ++ [c]) s e).2.1 (bc + 1) (pulled + 1)).success,
         (runLoop op bs cap rest [] (flushBatch op (pulled + 1) (batch ++ [c]) s e).1
            (flushBatch op (pulled + 1) (batch ++ [c]) s e).2.1 (bc + 1) (pulled + 1)).errors,
         (runLoop op bs cap rest [] (flushBatch op (pulled + 1) (batch ++ [c]) s e).1
            (flushBatch op (pulled + 1) (batch ++ [c]) s e).2.1 (bc + 1) (pulled + 1)).batchCount,
         (runLoop op bs cap rest [] (flushBatch op (pulled + 1) (batch ++ [c]) s e).1
            (flushBatch op (pulled + 1) (batch ++ [c]) s e).2.1 (bc + 1) (pulled + 1)).capped,
         (runLoop op bs cap rest [] (flushBatch op (pulled + 1) (batch ++ [c]) s e).1
            (flushBatch op (pulled + 1) (batch ++ [c]) s e).2.1 (bc + 1) (pulled + 1)).pulled,
         (batch ++ [c]) ++
           (runLoop op bs cap rest [] (flushBatch op (pulled + 1) (batch ++ [c]) s e).1
              (flushBatch op (pulled + 1) (batch ++ [c]) s e).2.1 (bc + 1) (pulled + 1)).processed,
         (flushBatch op (pulled + 1) (batch ++ [c]) s e).2.2 ++
           (runLoop op bs cap rest [] (flushBatch op (pulled + 1) (batch ++ [c]) s e).1
              (flushBatch op (pulled + 1) (batch ++ [c]) s e).2.1 (bc + 1) (pulled + 1)).trace,
         (bc + 1, (flushBatch op (pulled + 1) (batch ++ [c]) s e).1,
            (flushBatch op (pulled + 1) (batch ++ [c]) s e).2.1) ::
           (runLoop op bs cap rest [] (flushBatch op (pulled + 1) (batch ++ [c]) s e).1
              (flushBatch op (pulled + 1) (batch ++ [c]) s e).2.1 (bc + 1) (pulled + 1)).reports,
         (batch ++ [c]).length ::
           (runLoop op bs cap rest [] (flushBatch op (pulled + 1) (batch ++ [c]) s e).1
              (flushBatch op (pulled + 1) (batch ++ [c]) s e).2.1 (bc + 1) (pulled + 1)).flushSizes,
         (runLoop op bs cap rest [] (flushBatch op (pulled + 1) (batch ++ [c]) s e).1
            (flushBatch op (pulled + 1) (batch ++ [c]) s e).2.1 (bc + 1) (pulled + 1)).tailSize,
         max (batch ++ [c]).length
           (runLoop op bs cap rest [] (flushBatch op (pulled + 1) (batch ++ [c]) s e).1
              (flushBatch op (pulled + 1) (batch ++ [c]) s e).2.1 (bc + 1) (pulled + 1)).maxBatch⟩ := by
  simp only [runLoop]
  rw [if_pos hb, if_neg hcap]

theorem runLoop_cons_keep {α : Type} (op : α → Bool) (bs cap : Nat)
    (c : α) (rest batch : List α) (s e bc pulled : Nat)
    (hb : ¬ bs ≤ (batch ++ [c]).length) :
    runLoop op bs cap (c :: rest) batch s e bc pulled
      = ⟨(runLoop op bs cap rest (batch ++ [c]) s e bc (pulled + 1)).success,
         (runLoop op bs cap rest (batch ++ [c]) s e bc (pulled + 1)).errors,
         (runLoop op bs cap rest (batch ++ [c]) s e bc (pulled + 1)).batchCount,
         (runLoop op bs cap rest (batch ++ [c]) s e bc (pulled + 1)).capped,
         (runLoop op bs cap rest (batch ++ [c]) s e bc (pulled + 1)).pulled,
         (runLoop op bs cap rest (batch ++ [c]) s e bc (pulled + 1)).processed,
         (runLoop op bs cap rest (batch ++ [c]) s e bc (pulled + 1)).trace,
         (runLoop op bs cap rest (batch ++ [c]) s e bc (pulled + 1)).reports,
         (runLoop op bs cap rest (batch ++ [c]) s e bc (pulled + 1)).flushSizes,
         (runLoop op bs cap rest (batch ++ [c]) s e bc (pulled + 1)).tailSize,
         max (batch ++ [c]).length
           (runLoop op bs cap rest (batch ++ [c]) s e bc (pulled + 1)).maxBatch⟩ := by
  simp only [runLoop]
  rw [if_neg hb]

theorem runLoop_stats {α : Type} (op : α → Bool) (bs cap : Nat) :
    ∀ (rest batch : List α) (s e bc pulled : Nat),
      (runLoop op bs cap rest batch s e bc pulled).success
          = s + ((runLoop op bs cap rest batch s e bc pulled).processed.filter op).length
        ∧ (runLoop op bs cap rest batch s e bc pulled).errors
          = e + ((runLoop op bs cap rest batch s e bc pulled).processed.filter
              (fun x => !(op x))).length := by
  intro rest
  induction rest with
  | nil =>
    intro batch s e bc pulled
    cases batch with
    | nil => rw [runLoop_nil_nil]; simp
    | cons b bt =>
      rw [runLoop_nil_cons]
      exact ⟨flushBatch_success op pulled (b :: bt) s e,
        flushBatch_errors op pulled (b :: bt) s e⟩
  | cons c rest ih =>
    intro batch s e bc pulled
    by_cases hb : bs ≤ (batch ++ [c]).length
    · by_cases hcap : cap ≤ (flushBatch op (pulled + 1) (batch ++ [c]) s e).1
      · rw [runLoop_cons_break op bs cap c rest batch s e bc pulled hb hcap]
        exact ⟨flushBatch_success op (pulled + 1) (batch ++ [c]) s e,
          flushBatch_errors op (pulled + 1) (batch ++ [c]) s e⟩
      · rw [runLoop_cons_cont op bs cap c rest batch s e bc pulled hb hcap]
        dsimp only
        have hs := flushBatch_success op (pulled + 1) (batch ++ [c]) s e
        have he := flushBatch_errors op (pulled + 1) (batch ++ [c]) s e
        set fs := (flushBatch op (pulled + 1) (batch ++ [c]) s e).1 with hS
        set fe := (flushBatch op (pulled + 1) (batch ++ [c]) s e).2.1 with hE
        have h1 := ih [] fs fe (bc + 1) (pulled + 1)
        have hfa : (List.filter op ((batch ++ [c]) ++
            (runLoop op bs cap rest [] fs fe (bc + 1) (pulled + 1)).processed)).length
            = (List.filter op (batch ++ [c])).length
              + (List.filter op
                  (runLoop op bs cap rest [] fs fe (bc + 1) (pulled + 1)).processed).length := by
          rw [List.filter_append, List.length_append]
        have hfb : (List.filter (fun x => !(op x)) ((batch ++ [c]) ++
            (runLoop op bs cap rest [] fs fe (bc + 1) (pulled + 1)).processed)).length
            = (List.filter (fun x => !(op x)) (batch ++ [c])).length
              + (List.filter (fun x => !(op x))
                  (runLoop op bs cap rest [] fs fe (bc + 1) (pulled + 1)).processed).length := by
          rw [List.filter_append, List.length_append]
        have hfc : (List.filter (fun c => !(op c)) (batch ++ [c])).length
            = (List.filter (fun x => !(op x)) (batch ++ [c])).length := rfl
        exact ⟨by omega, by omega⟩
    · rw [runLoop_cons_keep op bs cap c rest batch s e bc pulled hb]
      dsimp only
      exact ih (batch ++ [c]) s e bc (pulled + 1)

theorem runLoop_shape {α : Type} (op : α → Bool) (bs cap : Nat) :
    ∀ (rest batch : List α) (s e bc pulled : Nat),
      (∃ rest₂, batch ++ rest = (runLoop op bs cap rest batch s e bc pulled).processed ++ rest₂)
      ∧ ((runLoop op bs cap rest batch s e bc pulled).capped = false →
          (runLoop op bs cap rest batch s e bc pulled).processed = batch ++ rest)
      ∧ (runLoop op bs cap rest batch s e bc pulled).processed.length + pulled
          = (runLoop op bs cap rest batch s e bc pulled).pulled + batch.length
      ∧ (runLoop op bs cap rest batch s e bc pulled).pulled ≤ pulled + rest.length
      ∧ (runLoop op bs cap rest batch s e bc pulled).trace.length
          = (runLoop op bs cap rest batch s e bc pulled).processed.length := by
  intro rest
  induction rest with
  | nil =>
    intro batch s e bc pulled
    cases batch with
    | nil => rw [runLoop_nil_nil]; simp
    | cons b bt =>
      rw [runLoop_nil_cons]
      dsimp only
      refine ⟨⟨[], by simp⟩, by simp, by omega, by simp, ?_⟩
      exact flushBatch_trace_length op pulled (b :: bt) s e
  | cons c rest ih =>
    intro batch s e bc pulled
    by_cases hb : bs ≤ (batch ++ [c]).length
    · by_cases hcap : cap ≤ (flushBatch op (pulled + 1) (batch ++ [c]) s e).1
      · rw [runLoop_cons_break op bs cap c rest batch s e bc pulled hb hcap]
        dsimp only
        refine ⟨⟨rest, by simp⟩, by simp, ?_, ?_, ?_⟩
        · simp only [List.length_append, List.length_cons, List.length_nil]
          omega
        · simp only [List.length_cons]
          omega
        · exact flushBatch_trace_length op (pulled + 1) (batch ++ [c]) s e
      · rw [runLoop_cons_cont op bs cap c rest batch s e bc pulled hb hcap]
        obtain ⟨⟨rest₂, hpre⟩, hnc, hlen, hple, htr⟩ :=
          ih [] (flushBatch op (pulled + 1) (batch ++ [c]) s e).1
            (flushBatch op (pulled + 1) (batch ++ [c]) s e).2.1 (bc + 1) (pulled + 1)
        simp only [List.nil_append] at hpre hnc
        simp only [List.length_nil] at hlen
        dsimp only
        refine ⟨⟨rest₂, ?_⟩, ?_, ?_, ?_, ?_⟩
        · rw [List.append_assoc, ← hpre]; simp
        · intro hcf; rw [hnc hcf]; simp
        · simp only [List.length_append, List.length_cons, List.length_nil]
          omega
        · simp only [List.length_cons]
          omega
        · simp only [List.length_append, flushBatch_trace_length, htr]
    · rw [runLoop_cons_keep op bs cap c rest batch s e bc pulled hb]
      obtain ⟨⟨rest₂, hpre⟩, hnc, hlen, hple, htr⟩ :=
        ih (batch ++ [c]) s e bc (pulled + 1)
      dsimp only
      refine ⟨⟨rest₂, ?_⟩, ?_, ?_, ?_, ?_⟩
      · rw [← hpre]; simp
      · intro hcf; rw [hnc hcf]; simp
      · simp only [List.length_append, List.length_cons, List.length_nil] at hlen
        omega
      · simp only [List.length_cons]
        omega
      · exact htr

theorem runLoop_batches {α : Type} (op : α → Bool) (bs cap : Nat) :
    ∀ (rest batch : List α) (s e bc pulled : Nat),
      batch.length < bs →
      (∀ sz ∈ (runLoop op bs cap rest batch s e bc pulled).flushSizes, sz = bs)
      ∧ (runLoop op bs cap rest batch s e bc pulled).tailSize < bs
      ∧ (runLoop op bs cap rest batch s e bc pulled).maxBatch ≤ bs
      ∧ ((runLoop op bs cap rest batch s e bc pulled).capped = true →
          (runLoop op bs cap rest batch s e bc pulled).tailSize = 0) := by
  intro rest
  induction rest with
  | nil =>
    intro batch s e bc pulled hlt
    cases batch with
    | nil =>
      simp only [List.length_nil] at hlt
      rw [runLoop_nil_nil]
      simp
      omega
    | cons b bt =>
      rw [runLoop_nil_cons]
      dsimp only
      simp only [List.length_cons] at hlt
      refine ⟨by simp, ?_, ?_, by simp⟩
      · simp only [List.length_cons]; omega
      · simp only [List.length_cons]; omega
  | cons c rest ih =>
    intro batch s e bc pulled hlt
    by_cases hb : bs ≤ (batch ++ [c]).length
    · have hfull : (batch ++ [c]).length = bs := by
        simp only [List.length_append, List.length_cons, List.length_nil] at hb ⊢
        omega
      by_cases hcap : cap ≤ (flushBatch op (pulled + 1) (batch ++ [c]) s e).1
      · rw [runLoop_cons_break op bs cap c rest batch s e bc pulled hb hcap]
        dsimp only
        refine ⟨?_, by omega, by omega, by simp⟩
        intro sz hsz
        have h1 : sz = (batch ++ [c]).length := by simpa using hsz
        rw [h1]
        exact hfull
      · rw [runLoop_cons_cont op bs cap c rest batch s e bc pulled hb hcap]
        dsimp only
        obtain ⟨hfs, htl, hmx, hct⟩ :=
          ih [] (flushBatch op (pulled + 1) (batch ++ [c]) s e).1
            (flushBatch op (pulled + 1) (batch ++ [c]) s e).2.1 (bc + 1) (pulled + 1)
            (by simpa using Nat.lt_of_le_of_lt (Nat.zero_le _) hlt)
        refine ⟨?_, htl, ?_, hct⟩
        · intro sz hsz
          rcases List.mem_cons.mp hsz with h1 | h2
          · omega
          · exact hfs sz h2
        · have := Nat.max_le.mpr ⟨Nat.le_of_eq hfull, hmx⟩
          exact this
    · rw [runLoop_cons_keep op bs cap c rest batch s e bc pulled hb]
      dsimp only
      have hlt2 : (batch ++ [c]).length < bs := by omega
      obtain ⟨hfs, htl, hmx, hct⟩ := ih (batch ++ [c]) s e bc (pulled + 1) hlt2
      exact ⟨hfs, htl, Nat.max_le.mpr ⟨Nat.le_of_lt hlt2, hmx⟩, hct⟩

theorem runLoop_cap {α : Type} (op : α → Bool) (bs cap : Nat) :
    ∀ (rest batch : List α) (s e bc pulled : Nat),
      batch.length < bs → s < cap → pulled = bc * bs + batch.length →
      ((runLoop op bs cap rest batch s e bc pulled).capped = true →
          cap ≤ (runLoop op bs cap rest batch s e bc pulled).success
          ∧ (runLoop op bs cap rest batch s e bc pulled).success < cap + bs)
      ∧ (runLoop op bs cap rest batch s e bc pulled).pulled
          = (runLoop op bs cap rest batch s e bc pulled).batchCount * bs
            + (runLoop op bs cap rest batch s e bc pulled).tailSize := by
  intro rest
  induction rest with
  | nil =>
    intro batch s e bc pulled hlt hsc hal
    cases batch with
    | nil => rw [runLoop_nil_nil]; simpa using hal
    | cons b bt =>
      rw [runLoop_nil_cons]
      dsimp only
      exact ⟨by simp, hal⟩
  | cons c rest ih =>
    intro batch s e bc pulled hlt hsc hal
    by_cases hb : bs ≤ (batch ++ [c]).length
    · have hfull : (batch ++ [c]).length = bs := by
        simp only [List.length_append, List.length_cons, List.length_nil] at hb ⊢
        omega
      have hfull2 : batch.length + 1 = bs := by
        have h0 := hfull
        simp only [List.length_append, List.length_cons, List.length_nil] at h0
        omega
      have hmul : (bc + 1) * bs = bc * bs + bs := by ring
      by_cases hcap : cap ≤ (flushBatch op (pulled + 1) (batch ++ [c]) s e).1
      · rw [runLoop_cons_break op bs cap c rest batch s e bc pulled hb hcap]
        dsimp only
        constructor
        · intro _
          refine ⟨hcap, ?_⟩
          have h1 := flushBatch_success op (pulled + 1) (batch ++ [c]) s e
          have h2 := List.length_filter_le op (batch ++ [c])
          omega
        · omega
      · rw [runLoop_cons_cont op bs cap c rest batch s e bc pulled hb hcap]
        dsimp only
        have hal2 : pulled + 1 = (bc + 1) * bs + List.length ([] : List α) := by
          simp only [List.length_nil]
          omega
        exact ih [] (flushBatch op (pulled + 1) (batch ++ [c]) s e).1
          (flushBatch op (pulled + 1) (batch ++ [c]) s e).2.1 (bc + 1) (pulled + 1)
          (by simp only [List.length_nil]; omega) (by omega) hal2
    · rw [runLoop_cons_keep op bs cap c rest batch s e bc pulled hb]
      dsimp only
      have hal2 : pulled + 1 = bc * bs + (batch ++ [c]).length := by
        simp only [List.length_append, List.length_cons, List.length_nil]
        omega
      exact ih (batch ++ [c]) s e bc (pulled + 1) (by omega) hsc hal2

theorem getElem?_some_lt {β : Type} (l : List β) (k : Nat) (x : β)
    (h : l[k]? = some x) : k < l.length := by
  by_contra hk
  push_neg at hk
  rw [List.getElem?_eq_none hk] at h
  exact Option.noConfusion h

theorem runLoop_trace {α : Type} (op : α → Bool) (bs cap : Nat) :
    ∀ (rest batch : List α) (s e bc pulled : Nat),
      s + e + batch.length = pulled →
      ∀ (k : Nat) (t : Nat × Nat × Nat),
        (runLoop op bs cap rest batch s e bc pulled).trace[k]? = some t →
          t.1 + t.2.1 = s + e + k + 1 ∧ t.1 + t.2.1 ≤ t.2.2
          ∧ t.2.2 ≤ (runLoop op bs cap rest batch s e bc pulled).pulled := by
  intro rest
  induction rest with
  | nil =>
    intro batch s e bc pulled hin k t ht
    cases batch with
    | nil =>
      rw [runLoop_nil_nil] at ht ⊢
      simp at ht
    | cons b bt =>
      rw [runLoop_nil_cons] at ht ⊢
      dsimp only at ht ⊢
      have hk := getElem?_some_lt _ k t ht
      rw [flushBatch_trace_length] at hk
      obtain ⟨h1, h2⟩ := flushBatch_trace_get op pulled (b :: bt) s e k t ht
      simp only [List.length_cons] at hin hk
      refine ⟨h1, ?_, ?_⟩ <;> omega
  | cons c rest ih =>
    intro batch s e bc pulled hin k t ht
    by_cases hb : bs ≤ (batch ++ [c]).length
    · have hin' : s + e + (batch ++ [c]).length = pulled + 1 := by
        simp only [List.length_append, List.length_cons, List.length_nil] at hin ⊢
        omega
      by_cases hcap : cap ≤ (flushBatch op (pulled + 1) (batch ++ [c]) s e).1
      · rw [runLoop_cons_break op bs cap c rest batch s e bc pulled hb hcap] at ht ⊢
        dsimp only at ht ⊢
        have hk := getElem?_some_lt _ k t ht
        rw [flushBatch_trace_length] at hk
        obtain ⟨h1, h2⟩ := flushBatch_trace_get op (pulled + 1) (batch ++ [c]) s e k t ht
        refine ⟨h1, ?_, ?_⟩ <;> omega
      · rw [runLoop_cons_cont op bs cap c rest batch s e bc pulled hb hcap] at ht ⊢
        dsimp only at ht ⊢
        have hflen := flushBatch_trace_length op (pulled + 1) (batch ++ [c]) s e
        have hparts : (flushBatch op (pulled + 1) (batch ++ [c]) s e).1
            + (flushBatch op (pulled + 1) (batch ++ [c]) s e).2.1
            = pulled + 1 := by
          have h1 := flushBatch_success op (pulled + 1) (batch ++ [c]) s e
          have h2 := flushBatch_errors op (pulled + 1) (batch ++ [c]) s e
          have h3 := List.length_eq_length_filter_add (l := batch ++ [c]) op
          have h4 : (List.filter (fun x => !(op x)) (batch ++ [c])).length
              = (List.filter (fun c => !(op c)) (batch ++ [c])).length := rfl
          omega
        have hple : pulled + 1
            ≤ (runLoop op bs cap rest [] (flushBatch op (pulled + 1) (batch ++ [c]) s e).1
                (flushBatch op (pulled + 1) (batch ++ [c]) s e).2.1 (bc + 1) (pulled + 1)).pulled := by
          have h5 := (runLoop_shape op bs cap rest []
            (flushBatch op (pulled + 1) (batch ++ [c]) s e).1
            (flushBatch op (pulled + 1) (batch ++ [c]) s e).2.1 (bc + 1) (pulled + 1)).2.2.1
          simp only [List.length_nil] at h5
          omega
        by_cases hk : k < (flushBatch op (pulled + 1) (batch ++ [c]) s e).2.2.length
        · rw [List.getElem?_append_left hk] at ht
          obtain ⟨h1, h2⟩ := flushBatch_trace_get op (pulled + 1) (batch ++ [c]) s e k t ht
          rw [hflen] at hk
          refine ⟨h1, ?_, ?_⟩ <;> omega
        · push_neg at hk
          rw [List.getElem?_append_right hk] at ht
          obtain ⟨h1, h2, h3⟩ := ih [] (flushBatch op (pulled + 1) (batch ++ [c]) s e).1
            (flushBatch op (pulled + 1) (batch ++ [c]) s e).2.1 (bc + 1) (pulled + 1)
            (by simpa using hparts)
            (k - (flushBatch op (pulled + 1) (batch ++ [c]) s e).2.2.length) t ht
          rw [hflen] at hk
          rw [hflen] at h1
          refine ⟨?_, h2, h3⟩
          omega
    · rw [runLoop_cons_keep op bs cap c rest batch s e bc pulled hb] at ht ⊢
      dsimp only at ht ⊢
      have hin' : s + e + (batch ++ [c]).length = pulled + 1 := by
        simp only [List.length_append, List.length_cons, List.length_nil] at hin ⊢
        omega
      exact ih (batch ++ [c]) s e bc (pulled + 1) hin' k t ht

theorem runLoop_reports {α : Type} (op : α → Bool) (bs cap : Nat) :
    ∀ (rest batch : List α) (s e bc pulled : Nat),
      batch.length < bs →
      ((runLoop op bs cap rest batch s e bc pulled).reports.length + bc
        = (runLoop op bs cap rest batch s e bc pulled).batchCount)
      ∧ ∀ (k : Nat) (rep : Nat × Nat × Nat),
          (runLoop op bs cap rest batch s e bc pulled).reports[k]? = some rep →
            rep.1 = bc + k + 1
            ∧ rep.2.1 = s + (((runLoop op bs cap rest batch s e bc pulled).processed.take
                ((k + 1) * bs)).filter op).length
            ∧ rep.2.2 = e + (((runLoop op bs cap rest batch s e bc pulled).processed.take
                ((k + 1) * bs)).filter (fun x => !(op x))).length := by
  intro rest
  induction rest with
  | nil =>
    intro batch s e bc pulled hlt
    cases batch with
    | nil =>
      rw [runLoop_nil_nil]
      refine ⟨by simp, ?_⟩
      intro k rep ht
      simp at ht
    | cons b bt =>
      rw [runLoop_nil_cons]
      dsimp only
      refine ⟨by simp, ?_⟩
      intro k rep ht
      simp at ht
  | cons c rest ih =>
    intro batch s e bc pulled hlt
    by_cases hb : bs ≤ (batch ++ [c]).length
    · have hfull : (batch ++ [c]).length = bs := by
        simp only [List.length_append, List.length_cons, List.length_nil] at hb ⊢
        omega
      by_cases hcap : cap ≤ (flushBatch op (pulled + 1) (batch ++ [c]) s e).1
      · rw [runLoop_cons_break op bs cap c rest batch s e bc pulled hb hcap]
        dsimp only
        refine ⟨by simp only [List.length_cons, List.length_nil]; omega, ?_⟩
        intro k rep ht
        cases k with
        | zero =>
          simp at ht
          subst ht
          refine ⟨rfl, ?_, ?_⟩
          · have htk : (batch ++ [c]).take ((0 + 1) * bs) = batch ++ [c] := by
              rw [Nat.zero_add, Nat.one_mul]
              exact List.take_of_length_le (Nat.le_of_eq hfull)
            rw [htk]
            exact flushBatch_success op (pulled + 1) (batch ++ [c]) s e
          · have htk : (batch ++ [c]).take ((0 + 1) * bs) = batch ++ [c] := by
              rw [Nat.zero_add, Nat.one_mul]
              exact List.take_of_length_le (Nat.le_of_eq hfull)
            rw [htk]
            exact flushBatch_errors op (pulled + 1) (batch ++ [c]) s e
        | succ k =>
          simp at ht
      · rw [runLoop_cons_cont op bs cap c rest batch s e bc pulled hb hcap]
        dsimp only
        obtain ⟨ihl, ihg⟩ :=
          ih [] (flushBatch op (pulled + 1) (batch ++ [c]) s e).1
            (flushBatch op (pulled + 1) (batch ++ [c]) s e).2.1 (bc + 1) (pulled + 1)
            (by simp only [List.length_nil]; omega)
        refine ⟨by simp only [List.length_cons]; omega, ?_⟩
        intro k rep ht
        cases k with
        | zero =>
          rw [List.getElem?_cons_zero] at ht
          have hrep : rep = (bc + 1, (flushBatch op (pulled + 1) (batch ++ [c]) s e).1,
              (flushBatch op (pulled + 1) (batch ++ [c]) s e).2.1) := by
            exact (Option.some_inj.mp ht).symm
          subst hrep
          have htk : ((batch ++ [c]) ++
              (runLoop op bs cap rest [] (flushBatch op (pulled + 1) (batch ++ [c]) s e).1
                (flushBatch op (pulled + 1) (batch ++ [c]) s e).2.1
                (bc + 1) (pulled + 1)).processed).take ((0 + 1) * bs)
              = batch ++ [c] := by
            rw [Nat.zero_add, Nat.one_mul, List.take_append_eq_append_take,
              List.take_of_length_le (Nat.le_of_eq hfull), hfull, Nat.sub_self]
            simp
          refine ⟨rfl, ?_, ?_⟩
          · rw [htk]
            exact flushBatch_success op (pulled + 1) (batch ++ [c]) s e
          · rw [htk]
            exact flushBatch_errors op (pulled + 1) (batch ++ [c]) s e
        | succ k =>
          rw [List.getElem?_cons_succ] at ht
          obtain ⟨h1, h2, h3⟩ := ihg k rep ht
          have hmm : (k + 1 + 1) * bs = (k + 1) * bs + bs := by ring
          have htk2 : ((batch ++ [c]) ++
              (runLoop op bs cap rest [] (flushBatch op (pulled + 1) (batch ++ [c]) s e).1
                (flushBatch op (pulled + 1) (batch ++ [c]) s e).2.1
                (bc + 1) (pulled + 1)).processed).take ((k + 1 + 1) * bs)
              = (batch ++ [c]) ++
                ((runLoop op bs cap rest [] (flushBatch op (pulled + 1) (batch ++ [c]) s e).1
                  (flushBatch op (pulled + 1) (batch ++ [c]) s e).2.1
                  (bc + 1) (pulled + 1)).processed).take ((k + 1) * bs) := by
            rw [List.take_append_eq_append_take,
              List.take_of_length_le (by omega), hfull]
            have harg : (k + 1 + 1) * bs - bs = (k + 1) * bs := by omega
            rw [harg]
          have hs := flushBatch_success op (pulled + 1) (batch ++ [c]) s e
          have he := flushBatch_errors op (pulled + 1) (batch ++ [c]) s e
          refine ⟨by omega, ?_, ?_⟩
          · rw [htk2, List.filter_append, List.length_append]
            omega
          · rw [htk2, List.filter_append, List.length_append]
            have h4 : (List.filter (fun x => !(op x)) (batch ++ [c])).length
                = (List.filter (fun z => !(op z)) (batch ++ [c])).length := rfl
            omega
    · rw [runLoop_cons_keep op bs cap c rest batch s e bc pulled hb]
      dsimp only
      exact ih (batch ++ [c]) s e bc (pulled + 1) (by omega)

theorem flushBatchExc_error {α ε : Type} (op : α → Except ε Bool) :
    ∀ (l : List α) (s e : Nat) (ex : ε),
      flushBatchExc op l s e = Except.error ex →
      ∃ pre c post, l = pre ++ c :: post
        ∧ (∀ x ∈ pre, ∃ b, op x = Except.ok b) ∧ op c = Except.error ex := by
  intro l
  induction l with
  | nil => intro s e ex h; simp [flushBatchExc] at h
  | cons f rest ih =>
    intro s e ex h
    cases hop : op f with
    | error ex2 =>
      simp only [flushBatchExc, hop] at h
      obtain rfl : ex2 = ex := by simpa using h
      exact ⟨[], f, rest, by simp, by simp, hop⟩
    | ok b =>
      cases b with
      | true =>
        simp only [flushBatchExc, hop] at h
        obtain ⟨pre, cc, post, heq, hpre, hcc⟩ := ih (s + 1) e ex h
        refine ⟨f :: pre, cc, post, by rw [List.cons_append, heq], ?_, hcc⟩
        intro x hx
        rcases List.mem_cons.mp hx with h1 | h2
        · exact ⟨true, by rw [h1, hop]⟩
        · exact hpre x h2
      | false =>
        simp only [flushBatchExc, hop] at h
        obtain ⟨pre, cc, post, heq, hpre, hcc⟩ := ih s (e + 1) ex h
        refine ⟨f :: pre, cc, post, by rw [List.cons_append, heq], ?_, hcc⟩
        intro x hx
        rcases List.mem_cons.mp hx with h1 | h2
        · exact ⟨false, by rw [h1, hop]⟩
        · exact hpre x h2

theorem flushBatchExc_ok_mem {α ε : Type} (op : α → Except ε Bool) :
    ∀ (l : List α) (s e : Nat) (out : Nat × Nat),
      flushBatchExc op l s e = Except.ok out →
      ∀ x ∈ l, ∃ b, op x = Except.ok b := by
  intro l
  induction l with
  | nil => intro s e out _ x hx; simp at hx
  | cons f rest ih =>
    intro s e out h x hx
    cases hop : op f with
    | error ex2 =>
      simp only [flushBatchExc, hop] at h
      exact Except.noConfusion h
    | ok b =>
      rcases List.mem_cons.mp hx with h1 | h2
      · exact ⟨b, by rw [h1, hop]⟩
      · cases b with
        | true =>
          simp only [flushBatchExc, hop] at h
          exact ih (s + 1) e out h x h2
        | false =>
          simp only [flushBatchExc, hop] at h
          exact ih s (e + 1) out h x h2

theorem flushBatchExc_ok {α ε : Type} (op : α → Except ε Bool) (p : Nat) :
    ∀ (l : List α) (s e : Nat),
      (∀ x ∈ l, ∃ b, op x = Except.ok b) →
      flushBatchExc op l s e
        = Except.ok ((flushBatch (fun x => excBool (op x)) p l s e).1,
            (flushBatch (fun x => excBool (op x)) p l s e).2.1) := by
  intro l
  induction l with
  | nil => intro s e _; simp [flushBatchExc, flushBatch]
  | cons f rest ih =>
    intro s e hall
    obtain ⟨b, hop⟩ := hall f (List.mem_cons_self f rest)
    have hrest : ∀ x ∈ rest, ∃ b, op x = Except.ok b := fun x hx =>
      hall x (List.mem_cons_of_mem f hx)
    have hex : excBool (op f) = b := by rw [hop]; rfl
    cases b with
    | true =>
      simp only [flushBatchExc, hop]
      rw [ih (s + 1) e hrest]
      simp only [flushBatch, hex]
      simp
    | false =>
      simp only [flushBatchExc, hop]
      rw [ih s (e + 1) hrest]
      simp only [flushBatch, hex]
      simp

theorem runLoopExc_error {α ε : Type} (op : α → Except ε Bool) (bs cap : Nat) :
    ∀ (rest batch : List α) (s e : Nat) (ex : ε),
      runLoopExc op bs cap rest batch s e = Except.error ex →
      ∃ pre c post, batch ++ rest = pre ++ c :: post
        ∧ (∀ x ∈ pre, ∃ b, op x = Except.ok b) ∧ op c = Except.error ex := by
  intro rest
  induction rest with
  | nil =>
    intro batch s e ex h
    cases batch with
    | nil =>
      simp only [runLoopExc, List.isEmpty_nil, if_true] at h
      exact Except.noConfusion h
    | cons b bt =>
      simp only [runLoopExc, List.isEmpty_cons, if_false] at h
      obtain ⟨pre, cc, post, heq, hpre, hcc⟩ := flushBatchExc_error op (b :: bt) s e ex h
      exact ⟨pre, cc, post, by rw [List.append_nil, heq], hpre, hcc⟩
  | cons c rest ih =>
    intro batch s e ex h
    simp only [runLoopExc] at h
    by_cases hb : bs ≤ (batch ++ [c]).length
    · rw [if_pos hb] at h
      cases hfb : flushBatchExc op (batch ++ [c]) s e with
      | error ex2 =>
        rw [hfb] at h
        dsimp only at h
        obtain ⟨pre, cc, post, heq, hpre, hcc⟩ :=
          flushBatchExc_error op (batch ++ [c]) s e ex2 hfb
        refine ⟨pre, cc, post ++ rest, ?_, hpre, ?_⟩
        · have h2 : batch ++ c :: rest = (batch ++ [c]) ++ rest := by simp
          rw [h2, heq]
          simp [List.append_assoc]
        · have hee : ex2 = ex := by simpa using h
          rw [hcc, hee]
      | ok out =>
        rw [hfb] at h
        dsimp only at h
        by_cases hcap : cap ≤ out.1
        · rw [if_pos hcap] at h
          exact Except.noConfusion h
        · rw [if_neg hcap] at h
          obtain ⟨pre, cc, post, heq, hpre, hcc⟩ := ih [] out.1 out.2 ex h
          simp only [List.nil_append] at heq
          refine ⟨(batch ++ [c]) ++ pre, cc, post, ?_, ?_, hcc⟩
          · have h2 : batch ++ c :: rest = (batch ++ [c]) ++ rest := by simp
            rw [h2, heq]
            simp [List.append_assoc]
          · intro x hx
            rcases List.mem_append.mp hx with h1 | h2
            · exact flushBatchExc_ok_mem op (batch ++ [c]) s e out hfb x h1
            · exact hpre x h2
    · rw [if_neg hb] at h
      obtain ⟨pre, cc, post, heq, hpre, hcc⟩ := ih (batch ++ [c]) s e ex h
      refine ⟨pre, cc, post, ?_, hpre, hcc⟩
      rw [← heq]
      simp

theorem runLoopExc_ok_eq {α ε : Type} (op : α → Except ε Bool) (bs cap : Nat) :
    ∀ (rest batch : List α) (s e bc pulled : Nat),
      (∀ x ∈ batch, ∃ b, op x = Except.ok b) →
      (∀ x ∈ rest, ∃ b, op x = Except.ok b) →
      runLoopExc op bs cap rest batch s e
        = Except.ok
            ((runLoop (fun x => excBool (op x)) bs cap rest batch s e bc pulled).success,
             (runLoop (fun x => excBool (op x)) bs cap rest batch s e bc pulled).errors) := by
  intro rest
  induction rest with
  | nil =>
    intro batch s e bc pulled hbatch _
    cases batch with
    | nil =>
      rw [runLoop_nil_nil]
      simp [runLoopExc]
    | cons b bt =>
      rw [runLoop_nil_cons]
      dsimp only
      simp only [runLoopExc, List.isEmpty_cons, if_false]
      exact flushBatchExc_ok op pulled (b :: bt) s e hbatch
  | cons c rest ih =>
    intro batch s e bc pulled hbatch hrest
    have hbatch' : ∀ x ∈ batch ++ [c], ∃ b, op x = Except.ok b := by
      intro x hx
      rcases List.mem_append.mp hx with h1 | h2
      · exact hbatch x h1
      · rw [List.mem_singleton.mp h2]
        exact hrest c (List.mem_cons_self c rest)
    have hrest' : ∀ x ∈ rest, ∃ b, op x = Except.ok b := fun x hx =>
      hrest x (List.mem_cons_of_mem c hx)
    simp only [runLoopExc]
    by_cases hb : bs ≤ (batch ++ [c]).length
    · rw [if_pos hb,
        flushBatchExc_ok op (pulled + 1) (batch ++ [c]) s e hbatch']
      dsimp only
      by_cases hcap : cap
          ≤ (flushBatch (fun x => excBool (op x)) (pulled + 1) (batch ++ [c]) s e).1
      · rw [if_pos hcap,
          runLoop_cons_break (fun x => excBool (op x)) bs cap c rest batch s e bc pulled hb hcap]
      · rw [if_neg hcap,
          runLoop_cons_cont (fun x => excBool (op x)) bs cap c rest batch s e bc pulled hb hcap]
        dsimp only
        exact ih [] (flushBatch (fun x => excBool (op x)) (pulled + 1) (batch ++ [c]) s e).1
          (flushBatch (fun x => excBool (op x)) (pulled + 1) (batch ++ [c]) s e).2.1
          (bc + 1) (pulled + 1) (by simp) hrest'
    · rw [if_neg hb,
        runLoop_cons_keep (fun x => excBool (op x)) bs cap c rest batch s e bc pulled hb]
      dsimp only
      exact ih (batch ++ [c]) s e bc (pulled + 1) hbatch' hrest'

/-- `errorFreeDir`: enumerating the root and every directory below it
succeeds. -/
def errorFreeDir (root : FSDir) : Bool :=
  !root.denied && errorFree root.children

/-- `wfDir`: every directory listing of the tree has distinct names. -/
def wfDir (root : FSDir) : Bool := wfForest root.children

theorem mem_allFilesIn_head :
    ∀ (f : Forest) (pref p : FPath), p ∈ allFilesIn f pref →
      ∃ n rel, n ∈ namesOf f ∧ p = pref ++ n :: rel := by
  intro f
  induction f with
  | nil => intro pref p hp; simp [allFilesIn] at hp
  | fileC n rest ih =>
    intro pref p hp
    simp only [allFilesIn, List.mem_cons] at hp
    rcases hp with h1 | h2
    · exact ⟨n, [], by simp [namesOf], by rw [h1]⟩
    · obtain ⟨m, rel, hm, hpe⟩ := ih pref p h2
      exact ⟨m, rel, by simp [namesOf, hm], hpe⟩
  | dirC n d children rest ihc ihr =>
    intro pref p hp
    simp only [allFilesIn, List.mem_append] at hp
    rcases hp with h1 | h2
    · obtain ⟨m, rel, hm, hpe⟩ := ihc (pref ++ [n]) p h1
      refine ⟨n, m :: rel, by simp [namesOf], ?_⟩
      rw [hpe]
      simp
    · obtain ⟨m, rel, hm, hpe⟩ := ihr pref p h2
      exact ⟨m, rel, by simp [namesOf, hm], hpe⟩
  | otherC n rest ih =>
    intro pref p hp
    simp only [allFilesIn] at hp
    obtain ⟨m, rel, hm, hpe⟩ := ih pref p hp
    exact ⟨m, rel, by simp [namesOf, hm], hpe⟩

theorem allFilesIn_nodup :
    ∀ (f : Forest) (pref : FPath), wfForest f = true →
      (allFilesIn f pref).Nodup := by
  intro f
  induction f with
  | nil => intro pref _; simp [allFilesIn]
  | fileC n rest ih =>
    intro pref h
    simp only [wfForest, wfSub, namesOf, Bool.and_eq_true, decide_eq_true_eq,
      List.nodup_cons] at h
    obtain ⟨⟨hnm, hnd⟩, hsub⟩ := h
    simp only [allFilesIn, List.nodup_cons]
    constructor
    · intro hmem
      obtain ⟨m, rel, hm, hpe⟩ := mem_allFilesIn_head rest pref _ hmem
      have h2 : ([n] : FPath) = m :: rel := by
        have := List.append_cancel_left hpe
        simpa using this
      have h3 : n = m := (List.cons.injEq _ _ _ _).mp h2.symm |>.1.symm
      exact hnm (h3 ▸ hm)
    · exact ih pref (by simp [wfForest, Bool.and_eq_true, decide_eq_true_eq,
        hnd, hsub])
  | dirC n d children rest ihc ihr =>
    intro pref h
    simp only [wfForest, wfSub, namesOf, Bool.and_eq_true, decide_eq_true_eq,
      List.nodup_cons] at h
    obtain ⟨⟨hnm, hnd⟩, ⟨hndc, hsubc⟩, hsubr⟩ := h
    simp only [allFilesIn]
    refine List.Nodup.append ?_ ?_ ?_
    · exact ihc (pref ++ [n]) (by simp [wfForest, Bool.and_eq_true,
        decide_eq_true_eq, hndc, hsubc])
    · exact ihr pref (by simp [wfForest, Bool.and_eq_true, decide_eq_true_eq,
        hnd, hsubr])
    · intro p hp1 hp2
      obtain ⟨m1, rel1, _, hpe1⟩ := mem_allFilesIn_head children (pref ++ [n]) p hp1
      obtain ⟨m2, rel2, hm2, hpe2⟩ := mem_allFilesIn_head rest pref p hp2
      have h2 : pref ++ n :: (m1 :: rel1) = pref ++ m2 :: rel2 := by
        rw [← hpe2, hpe1]
        simp
      have h3 : n = m2 := ((List.cons.injEq _ _ _ _).mp
        (List.append_cancel_left h2)).1
      exact hnm (h3 ▸ hm2)
  | otherC n rest ih =>
    intro pref h
    simp only [wfForest, wfSub, namesOf, Bool.and_eq_true, decide_eq_true_eq,
      List.nodup_cons] at h
    obtain ⟨⟨hnm, hnd⟩, hsub⟩ := h
    simp only [allFilesIn]
    exact ih pref (by simp [wfForest, Bool.and_eq_true, decide_eq_true_eq,
      hnd, hsub])

theorem specMatch_iff (maxDepth : Nat) (p : FPath) :
    specMatch maxDepth p = true ↔
      (p.length ≤ maxDepth + 1 ∧ (∀ comp ∈ p, isHidden comp = false)
       ∧ extOk (p.getLastD []) = true
       ∧ formattedMatch (p.getLastD []) = false) := by
  simp [specMatch, List.all_eq_true, and_assoc]

theorem genList_eq_filter (maxDepth : Nat) :
    ∀ (f : Forest) (currentDepth : Nat) (pref : FPath),
      errorFree f = true →
      currentDepth = pref.length →
      (∀ comp ∈ pref, isHidden comp = false) →
      currentDepth ≤ maxDepth →
      genList maxDepth f currentDepth pref
        = (allFilesIn f pref).filter (specMatch maxDepth) := by
  intro f
  induction f with
  | nil => intro cd pref _ _ _ _; simp [genList, allFilesIn]
  | fileC n rest ihr =>
    intro cd pref herr hcd hpref hle
    have herr' : errorFree rest = true := by simpa [errorFree] using herr
    have hrest := ihr cd pref herr' hcd hpref hle
    have hlen : (pref ++ [n]).length ≤ maxDepth + 1 := by
      simp only [List.length_append, List.length_cons, List.length_nil]
      omega
    simp only [genList, allFilesIn]
    rw [List.filter_cons, hrest]
    by_cases hsm : specMatch maxDepth (pref ++ [n]) = true
    · rw [if_pos hsm]
      obtain ⟨_, hnh, hext, hfmt⟩ := (specMatch_iff maxDepth _).mp hsm
      have h1 : isHidden n = false := hnh n (by simp)
      have hgl : (pref ++ [n]).getLastD ([] : FName) = n :=
        List.getLastD_concat _ _ _
      rw [hgl] at hext hfmt
      simp [h1, hext, hfmt]
    · rw [if_neg hsm]
      by_cases h1 : isHidden n
      · simp [h1]
      · by_cases h2 : extOk n
        · by_cases h3 : formattedMatch n
          · simp [h1, h2, h3]
          · exfalso
            apply hsm
            rw [specMatch_iff]
            refine ⟨hlen, ?_, ?_, ?_⟩
            · intro comp hcomp
              rcases List.mem_append.mp hcomp with ha | hb
              · exact hpref comp ha
              · rw [List.mem_singleton.mp hb]
                simpa using h1
            · rw [List.getLastD_concat]
              exact h2
            · rw [List.getLastD_concat]
              simpa using h3
        · simp [h1, h2]
  | dirC n d children rest ihc ihr =>
    intro cd pref herr hcd hpref hle
    have herr' : (d = false ∧ errorFree children = true) ∧ errorFree rest = true := by
      simpa [errorFree, Bool.and_eq_true] using herr
    have hrest := ihr cd pref herr'.2 hcd hpref hle
    simp only [genList, allFilesIn]
    rw [List.filter_append, hrest]
    by_cases h1 : isHidden n
    · have hnil : (allFilesIn children (pref ++ [n])).filter (specMatch maxDepth) = [] := by
        rw [List.filter_eq_nil_iff]
        intro p hp
        obtain ⟨m, rel, _, hpe⟩ := mem_allFilesIn_head children (pref ++ [n]) p hp
        intro hq
        obtain ⟨_, hnh, _, _⟩ := (specMatch_iff maxDepth p).mp hq
        have : isHidden n = false := hnh n (by rw [hpe]; simp)
        rw [h1] at this
        exact Bool.noConfusion this
      simp [h1, hnil]
    · by_cases h2 : maxDepth < cd + 1
      · have hnil : (allFilesIn children (pref ++ [n])).filter (specMatch maxDepth) = [] := by
          rw [List.filter_eq_nil_iff]
          intro p hp
          obtain ⟨m, rel, _, hpe⟩ := mem_allFilesIn_head children (pref ++ [n]) p hp
          have hplen : maxDepth + 1 < p.length := by
            rw [hpe]
            simp only [List.length_append, List.length_cons, List.length_nil]
            omega
          intro hq
          obtain ⟨hql, _, _, _⟩ := (specMatch_iff maxDepth p).mp hq
          omega
        simp [h1, h2, hnil]
      · have hchild := ihc (cd + 1) (pref ++ [n]) herr'.1.2
          (by simp only [List.length_append, List.length_cons, List.length_nil]; omega)
          (by
            intro comp hcomp
            rcases List.mem_append.mp hcomp with ha | hb
            · exact hpref comp ha
            · rw [List.mem_singleton.mp hb]
              simpa using h1)
          (by omega)
        simp [h1, h2, herr'.1.1, hchild]
  | otherC n rest ih =>
    intro cd pref herr hcd hpref hle
    have herr' : errorFree rest = true := by simpa [errorFree] using herr
    simp only [genList, allFilesIn]
    exact ih cd pref herr' hcd hpref hle

/-- The traversal of an error-free root equals the spec-side filter of all
its files. -/
theorem find_eq_filter (maxDepth : Nat) (root : FSDir)
    (herr : errorFreeDir root = true) :
    find_unformatted_files_generator maxDepth root 0 []
      = (allFiles root).filter (specMatch maxDepth) := by
  obtain ⟨hd, hc⟩ : root.denied = false ∧ errorFree root.children = true := by
    simpa [errorFreeDir, Bool.and_eq_true] using herr
  simp only [find_unformatted_files_generator, allFiles]
  rw [if_neg (by omega), hd]
  rw [if_neg (by simp)]
  exact genList_eq_filter maxDepth root.children 0 [] hc rfl (by simp)
    (Nat.zero_le _)

theorem genList_pruneF (maxDepth : Nat) :
    ∀ (f : Forest) (cd : Nat) (pref : FPath),
      genList maxDepth (pruneF f) cd pref = genList maxDepth f cd pref := by
  intro f
  induction f with
  | nil => intro cd pref; rfl
  | fileC n rest ih =>
    intro cd pref
    simp only [pruneF, genList]
    rw [ih]
  | dirC n d children rest ihc ihr =>
    intro cd pref
    cases d with
    | false => simp [pruneF, genList, ihc, ihr]
    | true => simp [pruneF, genList, ihr]
  | otherC n rest ih =>
    intro cd pref
    simp only [pruneF, genList]
    rw [ih]

theorem errorFree_pruneF : ∀ f : Forest, errorFree (pruneF f) = true := by
  intro f
  induction f with
  | nil => rfl
  | fileC n rest ih => simpa [pruneF, errorFree] using ih
  | dirC n d children rest ihc ihr =>
    cases d with
    | false => simp [pruneF, errorFree, ihc, ihr]
    | true => simp [pruneF, errorFree, ihr]
  | otherC n rest ih => simpa [pruneF, errorFree] using ih

theorem allFilesIn_pruneF_sub :
    ∀ (f : Forest) (pref p : FPath),
      p ∈ allFilesIn (pruneF f) pref → p ∈ allFilesIn f pref := by
  intro f
  induction f with
  | nil => intro pref p hp; exact hp
  | fileC n rest ih =>
    intro pref p hp
    simp only [pruneF, allFilesIn, List.mem_cons] at hp ⊢
    rcases hp with h1 | h2
    · exact Or.inl h1
    · exact Or.inr (ih pref p h2)
  | dirC n d children rest ihc ihr =>
    intro pref p hp
    cases d with
    | false =>
      simp only [pruneF, allFilesIn, List.mem_append] at hp ⊢
      rcases hp with h1 | h2
      · exact Or.inl (ihc (pref ++ [n]) p h1)
      · exact Or.inr (ihr pref p h2)
    | true =>
      simp only [pruneF, allFilesIn, List.mem_append] at hp ⊢
      rcases hp with h1 | h2
      · exact absurd h1 (by simp)
      · exact Or.inr (ihr pref p h2)
  | otherC n rest ih =>
    intro pref p hp
    simp only [pruneF, allFilesIn] at hp ⊢
    exact ih pref p hp

theorem find_pruneRoot (maxDepth : Nat) (root : FSDir) :
    find_unformatted_files_generator maxDepth root 0 []
      = find_unformatted_files_generator maxDepth (pruneRoot root) 0 [] := by
  cases root with
  | mk denied children =>
    cases denied with
    | true => simp [find_unformatted_files_generator, pruneRoot, genList]
    | false => simp [find_unformatted_files_generator, pruneRoot, genList_pruneF]

theorem errorFreeDir_pruneRoot (root : FSDir) :
    errorFreeDir (pruneRoot root) = true := by
  cases root with
  | mk denied children =>
    cases denied with
    | true => simp [errorFreeDir, pruneRoot, errorFree]
    | false => simp [errorFreeDir, pruneRoot, errorFree_pruneF]

theorem allFiles_pruneRoot_sub (root : FSDir) (p : FPath) :
    p ∈ allFiles (pruneRoot root) → p ∈ allFiles root := by
  cases root with
  | mk denied children =>
    cases denied with
    | true =>
      intro h
      simp [allFiles, pruneRoot, allFilesIn] at h
    | false =>
      intro h
      simp only [allFiles, pruneRoot] at h ⊢
      exact allFilesIn_pruneF_sub children [] p (by simpa using h)

/-- A concrete archive tree exercising the filter: a plain match, an
already-formatted name, a hidden file, a wrong extension, an uppercase
extension one level down, a file below the depth limit, a non-regular
entry and a hidden subdirectory. -/
def exampleTree : FSDir :=
  ⟨false,
    Forest.fileC ("a.pdf".toList)
      (Forest.fileC ("2024-01-31_b.pdf".toList)
        (Forest.fileC (".c.pdf".toList)
          (Forest.fileC ("d.txt.bak".toList)
            (Forest.dirC ("sub".toList) false
              (Forest.fileC ("e.XLSX".toList)
                (Forest.dirC ("deep".toList) false
                  (Forest.fileC ("f.pdf".toList) Forest.nil) Forest.nil))
              (Forest.otherC ("g.pdf".toList)
                (Forest.dirC (".hid".toList) false
                  (Forest.fileC ("h.pdf".toList) Forest.nil) Forest.nil))))))⟩

/-- A concrete tree with a denied subdirectory next to a readable one. -/
def deniedTree : FSDir :=
  ⟨false,
    Forest.fileC ("a.pdf".toList)
      (Forest.dirC ("locked".toList) true
        (Forest.fileC ("x.pdf".toList) Forest.nil)
        (Forest.dirC ("ok".toList) false
          (Forest.fileC ("y.pdf".toList) Forest.nil) Forest.nil))⟩

/-- Claim C1: for every well-formed, error-free directory tree, the
candidates yielded by `find_unformatted_files_generator` are exactly the
regular files with no hidden component below the root, at depth at most
`maxDepth`, whose extension is case-insensitively in the allow-list and
whose name has no `YYYY-MM-DD_` prefix — in fact the yielded list equals
the spec-side filtered enumeration — and no file is yielded twice. -/
theorem C1_traversal_exact (maxDepth : Nat) (root : FSDir)
    (hwf : wfDir root = true) (herr : errorFreeDir root = true) :
    find_unformatted_files_generator maxDepth root 0 []
      = (allFiles root).filter (specMatch maxDepth)
    ∧ (find_unformatted_files_generator maxDepth root 0 []).Nodup := by
  have h1 := find_eq_filter maxDepth root herr
  refine ⟨h1, ?_⟩
  rw [h1]
  exact List.Nodup.sublist (List.filter_sublist _)
    (allFilesIn_nodup root.children [] hwf)

/-- Witness for C1 on `exampleTree` with `maxDepth = 1`. -/
theorem C1_witness :
    wfDir exampleTree = true ∧ errorFreeDir exampleTree = true
    ∧ (find_unformatted_files_generator 1 exampleTree 0 []
        = (allFiles exampleTree).filter (specMatch 1)
      ∧ (find_unformatted_files_generator 1 exampleTree 0 []).Nodup) :=
  ⟨by decide, by decide, C1_traversal_exact 1 exampleTree (by decide) (by decide)⟩

/-- Claim C2: at every per-item step of a run and at its end,
`success + errors` equals the number of candidates passed to the per-item
operation, and never exceeds the number of candidates pulled from the
traversal, which never exceeds the number of candidates available. -/
theorem C2_counters (α : Type) (op : α → Bool) (bs cap : Nat) (cands : List α) :
    (process_directory_optimized op bs cap cands).success
        + (process_directory_optimized op bs cap cands).errors
      = (process_directory_optimized op bs cap cands).processed.length
    ∧ (process_directory_optimized op bs cap cands).processed.length
      = (process_directory_optimized op bs cap cands).pulled
    ∧ (process_directory_optimized op bs cap cands).pulled ≤ cands.length
    ∧ ∀ (k : Nat) (t : Nat × Nat × Nat),
        (process_directory_optimized op bs cap cands).trace[k]? = some t →
          t.1 + t.2.1 = k + 1 ∧ t.1 + t.2.1 ≤ t.2.2
          ∧ t.2.2 ≤ (process_directory_optimized op bs cap cands).pulled := by
  simp only [process_directory_optimized]
  obtain ⟨hs, he⟩ := runLoop_stats op bs cap cands [] 0 0 0 0
  obtain ⟨_, _, hlen, hple, _⟩ := runLoop_shape op bs cap cands [] 0 0 0 0
  have hpart := List.length_eq_length_filter_add
    (l := (runLoop op bs cap cands [] 0 0 0 0).processed) op
  simp only [List.length_nil] at hlen
  refine ⟨by omega, by omega, by omega, ?_⟩
  intro k t ht
  obtain ⟨h1, h2, h3⟩ := runLoop_trace op bs cap cands [] 0 0 0 0 (by simp) k t ht
  exact ⟨by omega, h2, h3⟩

/-- Witness for C2 on a three-candidate run with batch size 2. -/
theorem C2_witness :
    (process_directory_optimized (fun _ : Nat => true) 2 10 [0, 1, 2]).success
        + (process_directory_optimized (fun _ : Nat => true) 2 10 [0, 1, 2]).errors
      = (process_directory_optimized (fun _ : Nat => true) 2 10 [0, 1, 2]).processed.length
    ∧ ((1 : Nat), (0 : Nat), (2 : Nat)).1 + ((1 : Nat), (0 : Nat), (2 : Nat)).2.1 = 0 + 1 :=
  ⟨(C2_counters Nat (fun _ => true) 2 10 [0, 1, 2]).1,
   ((C2_counters Nat (fun _ => true) 2 10 [0, 1, 2]).2.2.2 0 (1, 0, 2) (by decide)).1⟩

/-- Claim C3 counterexample: with batch size 2 and cap 3 over six
always-successful candidates, the run is capped with `success = 4`, which
lies outside the claimed range `[cap − batch_size + 1, cap] = [2, 3]`
(the run indeed stopped because of the cap: only 4 of 6 candidates were
pulled). -/
theorem C3_counterexample :
    (process_directory_optimized (fun _ : Nat => true) 2 3 [0, 1, 2, 3, 4, 5]).capped = true
    ∧ (process_directory_optimized (fun _ : Nat => true) 2 3 [0, 1, 2, 3, 4, 5]).pulled
        < ([0, 1, 2, 3, 4, 5] : List Nat).length
    ∧ (process_directory_optimized (fun _ : Nat => true) 2 3 [0, 1, 2, 3, 4, 5]).success = 4
    ∧ ¬(3 - 2 + 1
          ≤ (process_directory_optimized (fun _ : Nat => true) 2 3 [0, 1, 2, 3, 4, 5]).success
        ∧ (process_directory_optimized (fun _ : Nat => true) 2 3 [0, 1, 2, 3, 4, 5]).success
          ≤ 3) := by
  decide

/-- Claim C3 (amended): for every run that terminates because the global
success cap was reached, the final success count lies between `cap` and
`cap + batch_size − 1` inclusive (the code breaks only once `success`
has already reached the cap at a batch boundary, so the count can
overshoot the cap by up to `batch_size − 1`, never undershoot it). -/
theorem C3_amended (α : Type) (op : α → Bool) (bs cap : Nat) (cands : List α)
    (hbs : 1 ≤ bs) (hcap : 1 ≤ cap)
    (hc : (process_directory_optimized op bs cap cands).capped = true) :
    cap ≤ (process_directory_optimized op bs cap cands).success
    ∧ (process_directory_optimized op bs cap cands).success ≤ cap + bs - 1 := by
  simp only [process_directory_optimized] at hc ⊢
  obtain ⟨h1, h2⟩ := (runLoop_cap op bs cap cands [] 0 0 0 0
    (by simp only [List.length_nil]; omega) (by omega) (by simp)).1 hc
  exact ⟨h1, by omega⟩

/-- Witness for the amended C3: a capped run with `success = 4`,
`cap = 3`, `batch_size = 2`. -/
theorem C3_amended_witness :
    (1 ≤ 2 ∧ 1 ≤ 3
      ∧ (process_directory_optimized (fun _ : Nat => true) 2 3 [0, 1, 2, 3, 4, 5]).capped = true)
    ∧ (3 ≤ (process_directory_optimized (fun _ : Nat => true) 2 3 [0, 1, 2, 3, 4, 5]).success
      ∧ (process_directory_optimized (fun _ : Nat => true) 2 3 [0, 1, 2, 3, 4, 5]).success
        ≤ 3 + 2 - 1) :=
  ⟨⟨by decide, by decide, by decide⟩,
   C3_amended Nat (fun _ => true) 2 3 [0, 1, 2, 3, 4, 5] (by decide) (by decide) (by decide)⟩

/-- Claim C4: with `globalSuccessCap = 100` and `batchSize = 25`, a run
that terminates because of the cap has `success` in `{100, …, 124}`, and
the cap is never enforced mid-batch: the number of candidates pulled (and
counted) is an exact multiple of the batch size. -/
theorem C4_cap_range (α : Type) (op : α → Bool) (cands : List α)
    (hc : (process_directory_optimized op 25 100 cands).capped = true) :
    100 ≤ (process_directory_optimized op 25 100 cands).success
    ∧ (process_directory_optimized op 25 100 cands).success ≤ 124
    ∧ (process_directory_optimized op 25 100 cands).pulled
        = (process_directory_optimized op 25 100 cands).batchCount * 25
    ∧ (process_directory_optimized op 25 100 cands).success
        + (process_directory_optimized op 25 100 cands).errors
        = (process_directory_optimized op 25 100 cands).batchCount * 25 := by
  simp only [process_directory_optimized] at hc ⊢
  obtain ⟨hcapped, halign⟩ := runLoop_cap op 25 100 cands [] 0 0 0 0
    (by simp only [List.length_nil]; omega) (by omega) (by simp)
  obtain ⟨h1, h2⟩ := hcapped hc
  obtain ⟨_, _, _, htz⟩ := runLoop_batches op 25 100 cands [] 0 0 0 0
    (by simp only [List.length_nil]; omega)
  obtain ⟨hs, he⟩ := runLoop_stats op 25 100 cands [] 0 0 0 0
  obtain ⟨_, _, hlen, _, _⟩ := runLoop_shape op 25 100 cands [] 0 0 0 0
  have hpart := List.length_eq_length_filter_add
    (l := (runLoop op 25 100 cands [] 0 0 0 0).processed) op
  have htz0 := htz hc
  simp only [List.length_nil] at hlen
  exact ⟨h1, by omega, by omega, by omega⟩

/-- Witness for C4: 100 always-successful candidates are capped exactly
at 100 after four full batches. -/
theorem C4_witness :
    (process_directory_optimized (fun _ : Nat => true) 25 100 (List.range 100)).capped = true
    ∧ 100 ≤ (process_directory_optimized (fun _ : Nat => true) 25 100 (List.range 100)).success :=
  ⟨by decide, (C4_cap_range Nat (fun _ => true) (List.range 100) (by decide)).1⟩

/-- Claim C5: an enumeration error on a subdirectory is contained: the
traversal (a total function — the `except` clauses swallow the error, so
nothing propagates to the caller) yields exactly what it would yield on
the tree with every denied subtree emptied, that is, the spec-filter of
the accessible files; every such file is a file of the original tree, so
everything outside the denied subtree is still yielded. -/
theorem C5_error_containment (maxDepth : Nat) (root : FSDir) :
    find_unformatted_files_generator maxDepth root 0 []
      = find_unformatted_files_generator maxDepth (pruneRoot root) 0 []
    ∧ find_unformatted_files_generator maxDepth root 0 []
      = (allFiles (pruneRoot root)).filter (specMatch maxDepth)
    ∧ ∀ p ∈ allFiles (pruneRoot root), p ∈ allFiles root := by
  have h1 := find_pruneRoot maxDepth root
  have h2 := find_eq_filter maxDepth (pruneRoot root) (errorFreeDir_pruneRoot root)
  exact ⟨h1, h1.trans h2, fun p hp => allFiles_pruneRoot_sub root p hp⟩

/-- Witness for C5 on `deniedTree`: the locked subtree vanishes while the
file in the readable sibling directory is still yielded. -/
theorem C5_witness :
    find_unformatted_files_generator 3 deniedTree 0 []
        = find_unformatted_files_generator 3 (pruneRoot deniedTree) 0 []
    ∧ find_unformatted_files_generator 3 deniedTree 0 []
        = [["a.pdf".toList], ["ok".toList, "y.pdf".toList]]
    ∧ ["a.pdf".toList] ∈ allFiles deniedTree :=
  ⟨(C5_error_containment 3 deniedTree).1, by decide,
   (C5_error_containment 3 deniedTree).2.2 ["a.pdf".toList] (by decide)⟩

/-- Claim C6: a `false` return of the per-item operation adds exactly one
to `errors` and nothing to `success` (the counters are exactly the counts
of failing and succeeding processed candidates), and a `false` result
never aborts the run: unless the success cap stops it, every candidate is
processed, and an early stop can only come from `success` reaching the
cap. -/
theorem C6_failure_counting (α : Type) (op : α → Bool) (bs cap : Nat)
    (cands : List α) (hbs : 1 ≤ bs) (hcap : 1 ≤ cap) :
    (process_directory_optimized op bs cap cands).errors
        = ((process_directory_optimized op bs cap cands).processed.filter
            (fun x => !(op x))).length
    ∧ (process_directory_optimized op bs cap cands).success
        = ((process_directory_optimized op bs cap cands).processed.filter op).length
    ∧ ((process_directory_optimized op bs cap cands).capped = false →
        (process_directory_optimized op bs cap cands).processed = cands)
    ∧ ((process_directory_optimized op bs cap cands).capped = true →
        cap ≤ (process_directory_optimized op bs cap cands).success) := by
  simp only [process_directory_optimized]
  obtain ⟨hs, he⟩ := runLoop_stats op bs cap cands [] 0 0 0 0
  obtain ⟨_, hnc, _, _, _⟩ := runLoop_shape op bs cap cands [] 0 0 0 0
  have hcap' := (runLoop_cap op bs cap cands [] 0 0 0 0
    (by simp only [List.length_nil]; omega) (by omega) (by simp)).1
  refine ⟨by omega, by omega, ?_, fun hc => (hcap' hc).1⟩
  intro hc
  simpa using hnc hc

/-- Witness for C6: one odd candidate among three yields one error and
the run still processes all three. -/
theorem C6_witness :
    (process_directory_optimized (fun n : Nat => n % 2 == 0) 2 10 [0, 1, 2]).errors
        = ((process_directory_optimized (fun n : Nat => n % 2 == 0) 2 10 [0, 1, 2]).processed.filter
            (fun x => !((fun n : Nat => n % 2 == 0) x))).length
    ∧ (process_directory_optimized (fun n : Nat => n % 2 == 0) 2 10 [0, 1, 2]).processed
        = [0, 1, 2] :=
  ⟨(C6_failure_counting Nat (fun n => n % 2 == 0) 2 10 [0, 1, 2] (by decide) (by decide)).1,
   (C6_failure_counting Nat (fun n => n % 2 == 0) 2 10 [0, 1, 2] (by decide) (by decide)).2.2.1
     (by decide)⟩

/-- Claim C7: the batch container never holds more than the configured
batch size; every batch flushed inside the main loop has exactly the
batch size; the tail batch (flushed only after the source is exhausted —
a capped run has none) is strictly smaller. -/
theorem C7_batch_bounds (α : Type) (op : α → Bool) (bs cap : Nat)
    (cands : List α) (hbs : 1 ≤ bs) :
    (∀ sz ∈ (process_directory_optimized op bs cap cands).flushSizes, sz = bs)
    ∧ (process_directory_optimized op bs cap cands).tailSize < bs
    ∧ (process_directory_optimized op bs cap cands).maxBatch ≤ bs
    ∧ ((process_directory_optimized op bs cap cands).capped = true →
        (process_directory_optimized op bs cap cands).tailSize = 0) := by
  simp only [process_directory_optimized]
  exact runLoop_batches op bs cap cands [] 0 0 0 0
    (by simp only [List.length_nil]; omega)

/-- Witness for C7: seven candidates with batch size 3 give two full
flushes and a tail of one. -/
theorem C7_witness :
    (process_directory_optimized (fun _ : Nat => true) 3 100 [0, 1, 2, 3, 4, 5, 6]).tailSize < 3
    ∧ (process_directory_optimized (fun _ : Nat => true) 3 100 [0, 1, 2, 3, 4, 5, 6]).flushSizes
        = [3, 3]
    ∧ (process_directory_optimized (fun _ : Nat => true) 3 100 [0, 1, 2, 3, 4, 5, 6]).tailSize
        = 1 :=
  ⟨(C7_batch_bounds Nat (fun _ => true) 3 100 [0, 1, 2, 3, 4, 5, 6] (by decide)).2.1,
   by decide, by decide⟩

/-- Claim C8 counterexample: a run whose only flush is the tail flush
processes its candidate (success = 1) yet emits no progress report — the
sink receives nothing for the tail batch, contradicting "after each batch
flush (including the tail batch flush)". -/
theorem C8_counterexample :
    (process_directory_optimized (fun _ : Nat => true) 25 500 [7]).tailSize = 1
    ∧ (process_directory_optimized (fun _ : Nat => true) 25 500 [7]).processed = [7]
    ∧ (process_directory_optimized (fun _ : Nat => true) 25 500 [7]).success = 1
    ∧ (process_directory_optimized (fun _ : Nat => true) 25 500 [7]).reports = [] := by
  decide

/-- Claim C8 (amended): after each full-batch flush in the main loop the
sink receives the 1-based batch index together with the cumulative
success and error counts (one report per counted batch); the tail-batch
flush emits no progress signal. -/
theorem C8_amended (α : Type) (op : α → Bool) (bs cap : Nat) (cands : List α)
    (hbs : 1 ≤ bs) :
    (process_directory_optimized op bs cap cands).reports.length
        = (process_directory_optimized op bs cap cands).batchCount
    ∧ ∀ (k : Nat) (rep : Nat × Nat × Nat),
        (process_directory_optimized op bs cap cands).reports[k]? = some rep →
          rep.1 = k + 1
          ∧ rep.2.1 = (((process_directory_optimized op bs cap cands).processed.take
              ((k + 1) * bs)).filter op).length
          ∧ rep.2.2 = (((process_directory_optimized op bs cap cands).processed.take
              ((k + 1) * bs)).filter (fun x => !(op x))).length := by
  simp only [process_directory_optimized]
  obtain ⟨hl, hg⟩ := runLoop_reports op bs cap cands [] 0 0 0 0
    (by simp only [List.length_nil]; omega)
  refine ⟨by omega, ?_⟩
  intro k rep ht
  obtain ⟨h1, h2, h3⟩ := hg k rep ht
  exact ⟨by omega, by omega, by omega⟩

/-- Witness for the amended C8: five candidates with batch size 2 give
two loop reports and one unreported tail item. -/
theorem C8_amended_witness :
    (process_directory_optimized (fun _ : Nat => true) 2 500 [0, 1, 2, 3, 4]).reports.length
        = (process_directory_optimized (fun _ : Nat => true) 2 500 [0, 1, 2, 3, 4]).batchCount
    ∧ ((1 : Nat), (2 : Nat), (0 : Nat)).1 = 0 + 1 :=
  ⟨(C8_amended Nat (fun _ => true) 2 500 [0, 1, 2, 3, 4] (by decide)).1,
   ((C8_amended Nat (fun _ => true) 2 500 [0, 1, 2, 3, 4] (by decide)).2 0 (1, 2, 0)
     (by decide)).1⟩

/-- Claim C9: when the archive root does not exist, `main` refuses to
start: no traversal is created, no candidate is pulled and no per-item
operation is invoked (the result is `none`, produced before any run); in
every other case the run over the traversal's candidates is exactly what
is returned. -/
theorem C9_missing_root (op : FPath → Bool) :
    main_run none op = none
    ∧ ∀ (root : FSDir) (r : RunResult FPath),
        main_run (some root) op = some r →
          r = process_directory_optimized op 25 500
                (find_unformatted_files_generator 3 root 0 []) := by
  refine ⟨rfl, ?_⟩
  intro root r h
  exact (Option.some_inj.mp h).symm

/-- Witness for C9 at a trivially empty existing root. -/
theorem C9_witness :
    main_run none (fun _ => true) = none
    ∧ process_directory_optimized (fun _ => true) 25 500
          (find_unformatted_files_generator 3 ⟨false, Forest.nil⟩ 0 [])
        = process_directory_optimized (fun _ => true) 25 500
          (find_unformatted_files_generator 3 ⟨false, Forest.nil⟩ 0 []) :=
  ⟨(C9_missing_root (fun _ => true)).1,
   (C9_missing_root (fun _ => true)).2 ⟨false, Forest.nil⟩
     (process_directory_optimized (fun _ => true) 25 500
       (find_unformatted_files_generator 3 ⟨false, Forest.nil⟩ 0 [])) rfl⟩

/-- Claim C10: the batch runner installs no handler around the per-item
operation, so if it raises, the exception escapes
`process_directory_optimized` at the first raising candidate: no
statistics are returned, every candidate before it returned normally,
and nothing at or after it is counted; when no processed candidate
raises, the runner returns exactly the statistics of the boolean run. -/
theorem C10_exception_escape (α ε : Type) (op : α → Except ε Bool)
    (bs cap : Nat) (cands : List α) :
    (∀ ex : ε, process_directory_optimized_exc op bs cap cands = Except.error ex →
        ∃ pre c post, cands = pre ++ c :: post
          ∧ (∀ x ∈ pre, ∃ b, op x = Except.ok b) ∧ op c = Except.error ex)
    ∧ ((∀ x ∈ cands, ∃ b, op x = Except.ok b) →
        process_directory_optimized_exc op bs cap cands
          = Except.ok
              ((process_directory_optimized (fun x => excBool (op x)) bs cap cands).success,
               (process_directory_optimized (fun x => excBool (op x)) bs cap cands).errors)) := by
  constructor
  · intro ex h
    obtain ⟨pre, c, post, heq, hpre, hc⟩ :=
      runLoopExc_error op bs cap cands [] 0 0 ex
        (by simpa [process_directory_optimized_exc] using h)
    exact ⟨pre, c, post, by simpa using heq, hpre, hc⟩
  · intro hall
    simp only [process_directory_optimized_exc, process_directory_optimized]
    exact runLoopExc_ok_eq op bs cap cands [] 0 0 0 0 (by simp) hall

/-- Witness for C10: `raisingOp` raises on candidate 1, and the escape is
exactly at that first raising candidate; on a raise-free list the runner
returns the boolean-run statistics. -/
theorem C10_witness :
    (∃ pre c post, ([0, 1, 2] : List Nat) = pre ++ c :: post
      ∧ (∀ x ∈ pre, ∃ b, raisingOp x = Except.ok b)
      ∧ raisingOp c = Except.error ())
    ∧ process_directory_optimized_exc raisingOp 25 500 ([3, 4] : List Nat)
        = Except.ok
            ((process_directory_optimized (fun x => excBool (raisingOp x)) 25 500 [3, 4]).success,
             (process_directory_optimized (fun x => excBool (raisingOp x)) 25 500 [3, 4]).errors) :=
  ⟨(C10_exception_escape Nat Unit raisingOp 25 500 [0, 1, 2]).1 () rfl,
   (C10_exception_escape Nat Unit raisingOp 25 500 [3, 4]).2 (by
      intro x hx
      rcases List.mem_cons.mp hx with h | h
      · exact ⟨true, by rw [h]; rfl⟩
      · rcases List.mem_cons.mp h with h2 | h2
        · exact ⟨true, by rw [h2]; rfl⟩
        · simp at h2)⟩
